import Mathlib

/-!
Verification of the ECDSA core (deterministic RFC 6979 nonces, signing,
verification, public-key recovery) of this repository.

The six operations of the core (`deterministicGenerateK`, `sign`, `verify`,
`verifyRaw`, `recoverPubKey`, `calcPubKeyRecoveryParam`) are translated from
the source.  Their external collaborators (big-integer arithmetic, the
elliptic-curve group, SHA-256 / HMAC-SHA-256) are out of scope of the core and
are modelled from the collaborator contracts of the specification: the hash
primitives are parameters, the curve is an abstract interface `Curve` whose
group laws are packaged in `Curve.Good`, and JavaScript exceptions are
modelled by `Except ECError`.  The unbounded nonce retry loop is modelled
with explicit fuel; running out of fuel is the artificial `ECError.fuelExhausted`.
-/

/-- Modelled from the spec: the external big-integer collaborator's
`BigInteger.fromBuffer`, reading a byte sequence as an unsigned big-endian
integer. -/
def fromBufferNat (l : List ℕ) : ℕ :=
  l.foldl (fun a b => 256 * a + b) 0

/-- Modelled from the spec: `BigInteger.fromBuffer` as used by the core,
producing a (nonnegative) arbitrary-precision integer. -/
def fromBuffer (l : List ℕ) : ℤ :=
  (fromBufferNat l : ℤ)

/-- Modelled from the spec: the external big-integer collaborator's
`d.toBuffer(32)`, the fixed-width 32-byte big-endian encoding. -/
def toBuffer32 (d : ℤ) : List ℕ :=
  (List.range 32).map (fun i => d.toNat / 256 ^ (31 - i) % 256)

/-- Modelled from the spec: the external big-integer collaborator's
`a.modInverse(n)` (§6, "modular inverse").  For the inputs the core passes it
(`n` the prime group order and `0 < a < n`) it returns the unique inverse of
`a` in `[0, n)`; we realise the contract with a Fermat power, which agrees
with the library's extended-Euclid implementation on all such inputs. -/
def modInverse (a n : ℤ) : ℤ :=
  a ^ (n.toNat - 2) % n

/-- Error taxonomy of the specification (§7) for the exceptions thrown by the
core, plus the artificial `fuelExhausted` used to totalise the unbounded
nonce retry loop. -/
inductive ECError where
  | inputValidation
  | invalidCurvePoint
  | recoveryFailure
  | recoveryNotFound
  | fuelExhausted
deriving DecidableEq

instance {ε α : Type} [DecidableEq ε] [DecidableEq α] : DecidableEq (Except ε α) :=
  fun a b =>
    match a, b with
    | .ok x, .ok y =>
      if h : x = y then .isTrue (by rw [h]) else .isFalse (by intro hc; cases hc; exact h rfl)
    | .error x, .error y =>
      if h : x = y then .isTrue (by rw [h]) else .isFalse (by intro hc; cases hc; exact h rfl)
    | .ok _, .error _ => .isFalse (by intro hc; cases hc)
    | .error _, .ok _ => .isFalse (by intro hc; cases hc)

/-- The `ECSignature` value class of the source: a pair `(r, s)` of
arbitrary-precision integers. -/
structure ECSignature where
  r : ℤ
  s : ℤ
deriving DecidableEq

/-- Modelled from the spec: the external elliptic-curve collaborator (§6).
It exposes the group order `n`, the generator `G`, the point at infinity
(`zero`), point addition and negation, the integer X-coordinate of a point,
and reconstruction of a point from an X-coordinate plus Y parity (`none`
models the `InvalidCurvePoint` failure when no such point exists). -/
structure Curve (Pt : Type) where
  n : ℕ
  G : Pt
  zero : Pt
  add : Pt → Pt → Pt
  neg : Pt → Pt
  affineX : Pt → ℕ
  pointFromX : Bool → ℕ → Option Pt

namespace Curve

variable {Pt : Type}

/-- Modelled from the spec: the collaborator's point-at-infinity test
`curve.isInfinity`. -/
def isInfinity [DecidableEq Pt] (C : Curve Pt) (P : Pt) : Bool :=
  decide (P = C.zero)

/-- Modelled from the spec: scalar multiplication by a natural number,
the collaborator's `P.multiply(k)` for nonnegative `k`. -/
def natMul (C : Curve Pt) : ℕ → Pt → Pt
  | 0, _ => C.zero
  | k + 1, P => C.add P (C.natMul k P)

/-- Modelled from the spec: the collaborator's scalar multiplication
`P.multiply(k)` on arbitrary-precision integers. -/
def intMul (C : Curve Pt) (k : ℤ) (P : Pt) : Pt :=
  if k < 0 then C.neg (C.natMul (-k).toNat P) else C.natMul k.toNat P

/-- Modelled from the spec: the collaborator's combined double-scalar
multiplication `P.multiplyTwo(a, Q, b) = a·P + b·Q` in one call (§6). -/
def multiplyTwo (C : Curve Pt) (a : ℤ) (P : Pt) (b : ℤ) (Q : Pt) : Pt :=
  C.add (C.intMul a P) (C.intMul b Q)

/-- The laws the specification's data model (§3, §6) requires of the curve
collaborator: the points form a commutative group under `add` with identity
`zero`, the order `n` is prime, the generator `G` has order exactly `n`, and
negation preserves the X-coordinate. -/
structure Good (C : Curve Pt) : Prop where
  add_comm : ∀ a b, C.add a b = C.add b a
  add_assoc : ∀ a b c, C.add (C.add a b) c = C.add a (C.add b c)
  add_zero : ∀ a, C.add a C.zero = a
  add_neg : ∀ a, C.add a (C.neg a) = C.zero
  n_prime : Nat.Prime C.n
  G_order : C.natMul C.n C.G = C.zero
  G_order_min : ∀ k, k < C.n → 0 < k → C.natMul k C.G ≠ C.zero
  affineX_neg : ∀ P, C.affineX (C.neg P) = C.affineX P

end Curve

/-- Further laws of the curve collaborator used by public-key recovery,
true of the cofactor-1 short-Weierstrass curves the surrounding system uses:
every X-coordinate is below `2n` (the field size is below `2n` by the Hasse
bound), every point of the carrier is annihilated by `n` (cofactor 1), and
every non-infinite point can be reconstructed from its X-coordinate with one
of the two parity bits. -/
structure Curve.Recoverable {Pt : Type} (C : Curve Pt) : Prop where
  affineX_lt : ∀ P, C.affineX P < 2 * C.n
  order_all : ∀ P, C.natMul C.n P = C.zero
  pointFromX_self : ∀ P, P ≠ C.zero → ∃ b, C.pointFromX b (C.affineX P) = some P

section Operations

variable {Pt : Type}

/-- The retry loop of `deterministicGenerateK` (source steps H2b/H3,
`while (T.signum() <= 0 || T.compareTo(curve.n) >= 0 || !checkSig(T))`),
totalised with explicit fuel.  Each round produces a candidate
`V = HMAC_SHA256(V, K)`, `T = fromBuffer(V)`, and on rejection re-keys with
`K = HMAC_SHA256(V ‖ 0x00, K)` followed by two `V` updates (the second being
the next round's step H2b).  `hmac data key` is the collaborator
`HmacSHA256(data, key)`. -/
def genKLoop (C : Curve Pt) (hmac : List ℕ → List ℕ → List ℕ) (checkSig : ℤ → Bool) :
    ℕ → List ℕ → List ℕ → Except ECError ℤ
  | 0, k, v =>
    let vv := hmac v k
    let T := fromBuffer vv
    if T ≤ 0 ∨ (C.n : ℤ) ≤ T ∨ checkSig T = false then .error .fuelExhausted
    else .ok T
  | fuel + 1, k, v =>
    let vv := hmac v k
    let T := fromBuffer vv
    if T ≤ 0 ∨ (C.n : ℤ) ≤ T ∨ checkSig T = false then
      let k2 := hmac (vv ++ [0]) k
      let v2 := hmac vv k2
      genKLoop C hmac checkSig fuel k2 v2
    else .ok T

/-- The source's `deterministicGenerateK(curve, hash, d, checkSig, nonce)`
(RFC 6979, §3.2).  A supplied nonzero `nonce` (JavaScript truthiness of the
optional argument) replaces the digest with
`sha256(hash ‖ Buffer.alloc(nonce))` before anything else; the 32-byte
sanity check (`assert.equal(hash.length, 32)`) then applies to the digest
actually used.  `hmac data key` and `sha256` are the hash collaborators. -/
def deterministicGenerateK (C : Curve Pt) (hmac : List ℕ → List ℕ → List ℕ)
    (sha256 : List ℕ → List ℕ) (hash : List ℕ) (d : ℤ) (checkSig : ℤ → Bool)
    (nonce : Option ℕ) (fuel : ℕ) : Except ECError ℤ :=
  let hash :=
    match nonce with
    | none => hash
    | some m => if m = 0 then hash else sha256 (hash ++ List.replicate m 0)
  if hash.length = 32 then
    let x := toBuffer32 d
    let v0 := List.replicate 32 1
    let k0 := List.replicate 32 0
    let k1 := hmac (v0 ++ [0] ++ x ++ hash) k0
    let v1 := hmac v0 k1
    let k2 := hmac (v1 ++ [1] ++ x ++ hash) k1
    let v2 := hmac v1 k2
    genKLoop C hmac checkSig fuel k2 v2
  else .error .inputValidation

/-- Specification-side restatement of the retry loop of §4.1 step 5, used as
the refinement comparator for `genKLoop`: draw `V = HMAC_SHA256(K, V)`, read
`T`, return it when `1 ≤ T < n` and `accept(T)`, otherwise re-key and retry. -/
def genKSpecLoop (C : Curve Pt) (hmac : List ℕ → List ℕ → List ℕ) (accept : ℤ → Bool) :
    ℕ → List ℕ → List ℕ → Except ECError ℤ
  | 0, k, v =>
    let v1 := hmac v k
    let T := fromBuffer v1
    if 1 ≤ T ∧ T < (C.n : ℤ) ∧ accept T = true then .ok T
    else .error .fuelExhausted
  | fuel + 1, k, v =>
    let v1 := hmac v k
    let T := fromBuffer v1
    if 1 ≤ T ∧ T < (C.n : ℤ) ∧ accept T = true then .ok T
    else
      let k1 := hmac (v1 ++ [0]) k
      let v2 := hmac v1 k1
      genKSpecLoop C hmac accept fuel k1 v2

/-- Specification-side restatement of the whole §4.1 derivation (RFC 6979
specialised to 256-bit digests), used as the refinement comparator for
`deterministicGenerateK`: `V = 0x01×32`, `K = 0x00×32`, two K/V update rounds
keyed with separator bytes `0x00` and `0x01` over `d_bytes(32) ‖ digest`,
then the retry loop. -/
def genKSpec (C : Curve Pt) (hmac : List ℕ → List ℕ → List ℕ)
    (hash : List ℕ) (d : ℤ) (accept : ℤ → Bool) (fuel : ℕ) : Except ECError ℤ :=
  let x := toBuffer32 d
  let V := List.replicate 32 1
  let K := List.replicate 32 0
  let K1 := hmac (V ++ [0] ++ x ++ hash) K
  let V1 := hmac V K1
  let K2 := hmac (V1 ++ [1] ++ x ++ hash) K1
  let V2 := hmac V1 K2
  genKSpecLoop C hmac accept fuel K2 V2

/-- The body of the acceptance closure inside `sign`: for a candidate `k` it
computes `Q = k·G`, rejects when `Q` is at infinity, sets `r = Q.x mod n`
(reject when zero) and `s = k⁻¹·(e + d·r) mod n` (reject when zero).  The
source communicates `(r, s)` through mutation of captured variables; here the
accepted pair is returned explicitly. -/
def signRS [DecidableEq Pt] (C : Curve Pt) (e d k : ℤ) : Option (ℤ × ℤ) :=
  let n : ℤ := (C.n : ℤ)
  let Q := C.intMul k C.G
  if C.isInfinity Q then none
  else
    let r := (C.affineX Q : ℤ) % n
    if r = 0 then none
    else
      let s := modInverse k n * (e + d * r) % n
      if s = 0 then none else some (r, s)

/-- The source's `sign(curve, hash, d, nonce)`: `e = int(hash)` from the
original digest, nonce generation through `deterministicGenerateK` with the
acceptance closure above, then low-S normalisation
(`if (s.compareTo(N_OVER_TWO) > 0) s = n.subtract(s)`).  The inner `none`
branch is unreachable because `deterministicGenerateK` only returns accepted
candidates. -/
def sign [DecidableEq Pt] (C : Curve Pt) (hmac : List ℕ → List ℕ → List ℕ)
    (sha256 : List ℕ → List ℕ) (hash : List ℕ) (d : ℤ) (nonce : Option ℕ)
    (fuel : ℕ) : Except ECError ECSignature :=
  let e := fromBuffer hash
  let n : ℤ := (C.n : ℤ)
  match deterministicGenerateK C hmac sha256 hash d
      (fun k => (signRS C e d k).isSome) nonce fuel with
  | .error err => .error err
  | .ok k =>
    match signRS C e d k with
    | none => .error .fuelExhausted
    | some (r, s) =>
      let nOverTwo := n / 2
      .ok ⟨r, if nOverTwo < s then n - s else s⟩

/-- The source's `verifyRaw(curve, e, signature, Q)` (SEC 1, 1.4): range
checks on `r` and `s`, `c = s⁻¹ mod n`, `u1 = e·c mod n`, `u2 = r·c mod n`,
one combined double-scalar multiplication `R = u1·G + u2·Q`, reject at
infinity, accept iff `R.x mod n = r`. -/
def verifyRaw [DecidableEq Pt] (C : Curve Pt) (e : ℤ) (sig : ECSignature) (Q : Pt) : Bool :=
  let n : ℤ := (C.n : ℤ)
  let r := sig.r
  let s := sig.s
  if r ≤ 0 ∨ n ≤ r then false
  else if s ≤ 0 ∨ n ≤ s then false
  else
    let c := modInverse s n
    let u1 := e * c % n
    let u2 := r * c % n
    let R := C.multiplyTwo u1 C.G u2 Q
    if C.isInfinity R then false
    else decide ((C.affineX R : ℤ) % n = r)

/-- Specification-side restatement of `verifyRaw` per §4.2, used as the
refinement comparator: reject if `r` or `s` is outside `[1, n-1]`, compute
`c`, `u1`, `u2`, `R = u1·G + u2·Q` in one combined double-scalar
multiplication, reject `R` at infinity, accept iff `R.x mod n = r`. -/
def verifyRawSpec [DecidableEq Pt] (C : Curve Pt) (e : ℤ) (sig : ECSignature) (Q : Pt) : Bool :=
  let n : ℤ := (C.n : ℤ)
  if 1 ≤ sig.r ∧ sig.r ≤ n - 1 then
    if 1 ≤ sig.s ∧ sig.s ≤ n - 1 then
      let c := modInverse sig.s n
      let u1 := e * c % n
      let u2 := sig.r * c % n
      let R := C.multiplyTwo u1 C.G u2 Q
      if C.isInfinity R then false
      else decide ((C.affineX R : ℤ) % n = sig.r)
    else false
  else false

/-- The source's `verify(curve, hash, signature, Q)`: `e = int(hash)`,
delegate to `verifyRaw`. -/
def verify [DecidableEq Pt] (C : Curve Pt) (hash : List ℕ) (sig : ECSignature) (Q : Pt) : Bool :=
  let e := fromBuffer hash
  verifyRaw C e sig Q

/-- The source's `recoverPubKey(curve, e, signature, i)` (SEC 1, 4.1.6).
The two leading asserts are `InputValidation`; a failed X-coordinate
reconstruction and the final `curve.validate(Q)` (whose reachable failure on
this carrier is the point at infinity) are `InvalidCurvePoint`; a candidate
`R` with `n·R ≠ ∞` is `RecoveryFailure`. -/
def recoverPubKey [DecidableEq Pt] (C : Curve Pt) (e : ℤ) (sig : ECSignature)
    (i : ℕ) : Except ECError Pt :=
  if i &&& 3 = i then
    let n : ℤ := (C.n : ℤ)
    let r := sig.r
    let s := sig.s
    if 0 < r ∧ r < n then
      if 0 < s ∧ s < n then
        let isYOdd : Bool := decide (i &&& 1 = 1)
        let isSecondKey : Bool := decide (0 < i >>> 1)
        let x : ℕ := if isSecondKey then (r + n).toNat else r.toNat
        match C.pointFromX isYOdd x with
        | none => .error .invalidCurvePoint
        | some R =>
          let nR := C.intMul n R
          if C.isInfinity nR then
            let eNeg := -e % n
            let rInv := modInverse r n
            let Q := C.intMul rInv (C.multiplyTwo s R eNeg C.G)
            if C.isInfinity Q then .error .invalidCurvePoint
            else .ok Q
          else .error .recoveryFailure
      else .error .inputValidation
    else .error .inputValidation
  else .error .inputValidation

/-- The loop of `calcPubKeyRecoveryParam`: `for (i = 0; i < 4; i++)` with the
remaining iteration count made explicit; an exhausted loop is the source's
`throw new Error('Unable to find valid recovery factor')` (`RecoveryNotFound`). -/
def calcGo [DecidableEq Pt] (C : Curve Pt) (e : ℤ) (sig : ECSignature) (Q : Pt) :
    ℕ → ℕ → Except ECError ℕ
  | 0, _ => .error .recoveryNotFound
  | rem + 1, i =>
    match recoverPubKey C e sig i with
    | .error err => .error err
    | .ok Qprime => if Qprime = Q then .ok i else calcGo C e sig Q rem (i + 1)

/-- The source's `calcPubKeyRecoveryParam(curve, e, signature, Q)`: try
recovery ids `0..3` in order and return the first whose recovered point
equals `Q`. -/
def calcPubKeyRecoveryParam [DecidableEq Pt] (C : Curve Pt) (e : ℤ)
    (sig : ECSignature) (Q : Pt) : Except ECError ℕ :=
  calcGo C e sig Q 4 0

end Operations

section ToyInstances

/-- A concrete contract-conforming curve collaborator used to exercise the
core: the cyclic group of prime order 7.  Negation preserves `affineX`
(folding `p` and `-p` together exactly as point negation preserves the
X-coordinate on a curve), and `pointFromX` returns, among the two points
with the given X-coordinate, the one whose parity bit matches. -/
def toyCurve : Curve (ZMod 7) where
  n := 7
  G := 1
  zero := 0
  add := fun a b => a + b
  neg := fun a => -a
  affineX := fun p => min p.val (7 - p.val)
  pointFromX := fun b x =>
    if 1 ≤ x ∧ 2 * x ≤ 7 then
      if decide (x % 2 = 1) = b then some ((x : ℕ) : ZMod 7)
      else some ((7 - x : ℕ) : ZMod 7)
    else none

/-- A second concrete collaborator, mimicking a curve whose field is larger
than its group order: the pair `{2, 5}` carries the X-coordinate `8 ≥ n`,
so its points are only reachable through the `x = r + n` (second key)
branch of recovery. -/
def toyCurve2 : Curve (ZMod 7) where
  n := 7
  G := 1
  zero := 0
  add := fun a b => a + b
  neg := fun a => -a
  affineX := fun p => if p.val = 2 ∨ p.val = 5 then 8 else min p.val (7 - p.val)
  pointFromX := fun b x =>
    if x = 1 then (if b then some 1 else some 6)
    else if x = 3 then (if b then some 3 else some 4)
    else if x = 8 then (if b then some 5 else some 2)
    else none

/-- A contract-conforming HMAC-SHA-256 stand-in (32-byte output) whose
constant value makes the first nonce candidate `T = 3`. -/
def toyHmac : List ℕ → List ℕ → List ℕ :=
  fun _ _ => List.replicate 31 0 ++ [3]

/-- A contract-conforming SHA-256 stand-in (32-byte output). -/
def toySha : List ℕ → List ℕ :=
  fun _ => List.replicate 32 0

end ToyInstances

section GroupLemmas

variable {Pt : Type} {C : Curve Pt}

theorem Curve.Good.zero_add (hC : C.Good) (a : Pt) : C.add C.zero a = a := by
  rw [hC.add_comm]; exact hC.add_zero a

theorem Curve.Good.add_left_cancel (hC : C.Good) {a b c : Pt}
    (h : C.add a b = C.add a c) : b = c := by
  have h2 : C.add (C.neg a) (C.add a b) = C.add (C.neg a) (C.add a c) := by rw [h]
  rw [← hC.add_assoc, ← hC.add_assoc, hC.add_comm (C.neg a) a, hC.add_neg,
    hC.zero_add, hC.zero_add] at h2
  exact h2

theorem Curve.Good.eq_neg_of_add_eq_zero (hC : C.Good) {a b : Pt}
    (h : C.add a b = C.zero) : b = C.neg a :=
  hC.add_left_cancel (c := C.neg a) (by rw [h, hC.add_neg])

theorem Curve.natMul_zero_pt (hC : C.Good) : ∀ m, C.natMul m C.zero = C.zero := by
  intro m
  induction m with
  | zero => rfl
  | succ m ih => rw [Curve.natMul, ih, hC.add_zero]

theorem Curve.natMul_add (hC : C.Good) (a b : ℕ) (P : Pt) :
    C.natMul (a + b) P = C.add (C.natMul a P) (C.natMul b P) := by
  induction a with
  | zero => rw [Nat.zero_add, Curve.natMul, hC.zero_add]
  | succ a ih =>
    have : a + 1 + b = (a + b) + 1 := by omega
    rw [this, Curve.natMul, Curve.natMul, ih, hC.add_assoc]

theorem Curve.natMul_mul (hC : C.Good) (a b : ℕ) (P : Pt) :
    C.natMul (a * b) P = C.natMul a (C.natMul b P) := by
  induction a with
  | zero => rw [Nat.zero_mul]; rfl
  | succ a ih =>
    have : (a + 1) * b = b + a * b := by ring
    rw [this, Curve.natMul_add hC, ih, Curve.natMul]

theorem Curve.natMul_G_mod (hC : C.Good) (m : ℕ) :
    C.natMul m C.G = C.natMul (m % C.n) C.G := by
  conv_lhs => rw [← Nat.mod_add_div' m C.n]
  rw [Curve.natMul_add hC, Curve.natMul_mul hC, hC.G_order,
    Curve.natMul_zero_pt hC, hC.add_zero]

theorem Curve.natMul_G_congr (hC : C.Good) {a b : ℕ}
    (h : (a : ZMod C.n) = (b : ZMod C.n)) : C.natMul a C.G = C.natMul b C.G := by
  have hab : a % C.n = b % C.n := (ZMod.natCast_eq_natCast_iff' a b C.n).1 h
  rw [Curve.natMul_G_mod hC a, Curve.natMul_G_mod hC b, hab]

theorem Curve.neg_natMul_G (hC : C.Good) {j : ℕ} (hj : j ≤ C.n) :
    C.natMul (C.n - j) C.G = C.neg (C.natMul j C.G) := by
  have hsum : C.add (C.natMul j C.G) (C.natMul (C.n - j) C.G) = C.zero := by
    rw [← Curve.natMul_add hC]
    have : j + (C.n - j) = C.n := by omega
    rw [this, hC.G_order]
  exact hC.eq_neg_of_add_eq_zero hsum

theorem Curve.intMul_nonneg {k : ℤ} (hk : 0 ≤ k) (P : Pt) :
    C.intMul k P = C.natMul k.toNat P := by
  rw [Curve.intMul, if_neg (by omega)]

theorem Curve.multiplyTwo_G (hC : C.Good) {a b d : ℤ}
    (ha : 0 ≤ a) (hb : 0 ≤ b) (hd : 0 ≤ d) :
    C.multiplyTwo a C.G b (C.intMul d C.G) =
      C.natMul (a.toNat + b.toNat * d.toNat) C.G := by
  rw [Curve.multiplyTwo, Curve.intMul_nonneg ha, Curve.intMul_nonneg hb,
    Curve.intMul_nonneg hd, ← Curve.natMul_mul hC, ← Curve.natMul_add hC]

end GroupLemmas

section ModInverseLemmas

/-- Over a prime modulus `p`, `modInverse a p` is a genuine inverse of `a`
in `ZMod p` whenever `0 < a < p`. -/
theorem modInverse_cast_mul {p : ℕ} (hp : Nat.Prime p) {a : ℤ}
    (h1 : 0 < a) (h2 : a < (p : ℤ)) :
    ((modInverse a (p : ℤ) : ℤ) : ZMod p) * ((a : ℤ) : ZMod p) = 1 := by
  haveI : Fact p.Prime := ⟨hp⟩
  have hA : ((a : ℤ) : ZMod p) ≠ 0 := by
    rw [Ne, ZMod.intCast_zmod_eq_zero_iff_dvd]
    intro hdvd
    have := Int.le_of_dvd h1 hdvd
    omega
  have hcast : ((modInverse a (p : ℤ) : ℤ) : ZMod p) = ((a : ℤ) : ZMod p) ^ (p - 2) := by
    rw [modInverse]
    have hmod : (a ^ ((p : ℤ).toNat - 2) % (p : ℤ) : ℤ) ≡ a ^ ((p : ℤ).toNat - 2) [ZMOD (p : ℤ)] :=
      Int.emod_emod_of_dvd _ dvd_rfl
    have := (ZMod.intCast_eq_intCast_iff _ _ _).2 hmod
    rw [this, Int.cast_pow, Int.toNat_natCast]
  rw [hcast, ← pow_succ]
  have hp2 : 2 ≤ p := hp.two_le
  have : p - 2 + 1 = p - 1 := by omega
  rw [this]
  exact ZMod.pow_card_sub_one_eq_one hA

/-- Cast of an `emod` by the modulus is the cast itself. -/
theorem intCast_emod_self {p : ℕ} (a : ℤ) :
    ((a % (p : ℤ) : ℤ) : ZMod p) = ((a : ℤ) : ZMod p) :=
  (ZMod.intCast_eq_intCast_iff _ _ _).2 (Int.emod_emod_of_dvd _ dvd_rfl)

end ModInverseLemmas

section GenKLemmas

variable {Pt : Type} {C : Curve Pt}

/-- A Bool that is not false is true. -/
theorem bool_eq_true_of_ne_false {b : Bool} (h : ¬(b = false)) : b = true := by
  cases b
  · exact absurd rfl h
  · rfl

/-- The continue-condition of the source retry loop is the negation of the
acceptance condition of the specification's loop. -/
theorem genK_cond_iff (accept : ℤ → Bool) (N T : ℤ) :
    (T ≤ 0 ∨ N ≤ T ∨ accept T = false) ↔ ¬(1 ≤ T ∧ T < N ∧ accept T = true) := by
  cases h : accept T <;> simp [h] <;> omega

/-- Whatever scalar the retry loop returns was in range and accepted. -/
theorem genKLoop_ok {hmac : List ℕ → List ℕ → List ℕ} {checkSig : ℤ → Bool}
    {fuel : ℕ} {k v : List ℕ} {T : ℤ}
    (h : genKLoop C hmac checkSig fuel k v = .ok T) :
    0 < T ∧ T < (C.n : ℤ) ∧ checkSig T = true := by
  induction fuel generalizing k v with
  | zero =>
    rw [genKLoop] at h
    split at h
    · cases h
    · next hcond =>
      cases h
      push_neg at hcond
      obtain ⟨h1, h2, h3⟩ := hcond
      exact ⟨by omega, by omega, bool_eq_true_of_ne_false h3⟩
  | succ fuel ih =>
    rw [genKLoop] at h
    split at h
    · exact ih h
    · next hcond =>
      cases h
      push_neg at hcond
      obtain ⟨h1, h2, h3⟩ := hcond
      exact ⟨by omega, by omega, bool_eq_true_of_ne_false h3⟩

/-- Whatever scalar `deterministicGenerateK` returns was in range and
accepted. -/
theorem deterministicGenerateK_ok {hmac : List ℕ → List ℕ → List ℕ}
    {sha256 : List ℕ → List ℕ} {hash : List ℕ} {d : ℤ} {checkSig : ℤ → Bool}
    {nonce : Option ℕ} {fuel : ℕ} {T : ℤ}
    (h : deterministicGenerateK C hmac sha256 hash d checkSig nonce fuel = .ok T) :
    0 < T ∧ T < (C.n : ℤ) ∧ checkSig T = true := by
  simp only [deterministicGenerateK] at h
  split at h
  · exact genKLoop_ok h
  · cases h

/-- The source retry loop and its specification restatement agree. -/
theorem genKLoop_eq_spec (hmac : List ℕ → List ℕ → List ℕ) (accept : ℤ → Bool)
    (fuel : ℕ) (k v : List ℕ) :
    genKLoop C hmac accept fuel k v = genKSpecLoop C hmac accept fuel k v := by
  induction fuel generalizing k v with
  | zero =>
    simp only [genKLoop, genKSpecLoop]
    by_cases hc : 1 ≤ fromBuffer (hmac v k) ∧ fromBuffer (hmac v k) < (C.n : ℤ) ∧
        accept (fromBuffer (hmac v k)) = true
    · rw [if_neg (fun h1 => ((genK_cond_iff accept _ _).1 h1) hc), if_pos hc]
    · rw [if_pos ((genK_cond_iff accept _ _).2 hc), if_neg hc]
  | succ fuel ih =>
    simp only [genKLoop, genKSpecLoop]
    by_cases hc : 1 ≤ fromBuffer (hmac v k) ∧ fromBuffer (hmac v k) < (C.n : ℤ) ∧
        accept (fromBuffer (hmac v k)) = true
    · rw [if_neg (fun h1 => ((genK_cond_iff accept _ _).1 h1) hc), if_pos hc]
    · rw [if_pos ((genK_cond_iff accept _ _).2 hc), if_neg hc]
      exact ih _ _

end GenKLemmas

section SignLemmas

variable {Pt : Type} [DecidableEq Pt] {C : Curve Pt}

theorem Curve.isInfinity_true_iff {P : Pt} : C.isInfinity P = true ↔ P = C.zero := by
  simp [Curve.isInfinity]

theorem Curve.isInfinity_eq_false {P : Pt} (h : P ≠ C.zero) : C.isInfinity P = false := by
  simp [Curve.isInfinity, h]

/-- Cast of `Int.toNat` of a nonnegative integer into `ZMod n`. -/
theorem cast_toNat_zmod {n : ℕ} {a : ℤ} (ha : 0 ≤ a) :
    ((a.toNat : ℕ) : ZMod n) = ((a : ℤ) : ZMod n) := by
  rw [← Int.cast_natCast, Int.toNat_of_nonneg ha]

/-- What an accepted candidate of the `sign` closure satisfies. -/
theorem signRS_some {e d k r s : ℤ} (h : signRS C e d k = some (r, s)) :
    C.intMul k C.G ≠ C.zero ∧
    r = (C.affineX (C.intMul k C.G) : ℤ) % (C.n : ℤ) ∧ r ≠ 0 ∧
    s = modInverse k (C.n : ℤ) * (e + d * r) % (C.n : ℤ) ∧ s ≠ 0 := by
  simp only [signRS] at h
  split at h
  · cases h
  · next hinf =>
    split at h
    · cases h
    · next hr0 =>
      split at h
      · cases h
      · next hs0 =>
        rw [Option.some_inj, Prod.mk.injEq] at h
        obtain ⟨hr, hs⟩ := h
        subst hr
        subst hs
        refine ⟨?_, rfl, hr0, rfl, hs0⟩
        intro hz
        rw [Curve.isInfinity_true_iff.2 hz] at hinf
        exact hinf rfl

/-- Inversion of a successful `sign`: the scalar came from
`deterministicGenerateK`, the pair from `signRS`, and the final `s` is the
low-S normalisation. -/
theorem sign_ok_inv {hmac : List ℕ → List ℕ → List ℕ} {sha256 : List ℕ → List ℕ}
    {hash : List ℕ} {d : ℤ} {nonce : Option ℕ} {fuel : ℕ} {sig : ECSignature}
    (h : sign C hmac sha256 hash d nonce fuel = .ok sig) :
    ∃ k r s,
      deterministicGenerateK C hmac sha256 hash d
        (fun k => (signRS C (fromBuffer hash) d k).isSome) nonce fuel = .ok k ∧
      signRS C (fromBuffer hash) d k = some (r, s) ∧
      sig = ⟨r, if (C.n : ℤ) / 2 < s then (C.n : ℤ) - s else s⟩ := by
  simp only [sign] at h
  split at h
  · cases h
  · next k hk =>
    split at h
    · cases h
    · next r s hrs =>
      cases h
      exact ⟨k, r, s, hk, hrs, rfl⟩

/-- Core round-trip fact: a signature assembled by `sign` from an accepted
nonce `k` (with `0 < d` and `0 < k < n`) passes `verifyRaw` against
`Q = d·G`, whether or not the low-S flip replaced `s` with `n - s`. -/
theorem verifyRaw_sign_aux (hC : C.Good) {e d k r s : ℤ}
    (hd0 : 0 < d) (hk0 : 0 < k) (hkn : k < (C.n : ℤ))
    (hRS : signRS C e d k = some (r, s)) :
    verifyRaw C e ⟨r, if (C.n : ℤ) / 2 < s then (C.n : ℤ) - s else s⟩
      (C.intMul d C.G) = true := by
  obtain ⟨hQ, hr, hrne, hs, hsne⟩ := signRS_some hRS
  have hp : Nat.Prime C.n := hC.n_prime
  haveI : Fact (Nat.Prime C.n) := ⟨hp⟩
  have hn2 : 2 ≤ C.n := hp.two_le
  have hN0 : (0 : ℤ) < (C.n : ℤ) := by exact_mod_cast (by omega : 0 < C.n)
  have hNne : ((C.n : ℤ)) ≠ 0 := by omega
  have hrpos : 0 < r := by
    have := Int.emod_nonneg ((C.affineX (C.intMul k C.G) : ℤ)) hNne
    rw [← hr] at this
    omega
  have hrlt : r < (C.n : ℤ) := by
    have := Int.emod_lt_of_pos ((C.affineX (C.intMul k C.G) : ℤ)) hN0
    rw [← hr] at this
    exact this
  have hspos : 0 < s := by
    have := Int.emod_nonneg (modInverse k (C.n : ℤ) * (e + d * r)) hNne
    rw [← hs] at this
    omega
  have hslt : s < (C.n : ℤ) := by
    have := Int.emod_lt_of_pos (modInverse k (C.n : ℤ) * (e + d * r)) hN0
    rw [← hs] at this
    exact this
  have hinv_k : ((modInverse k (C.n : ℤ) : ℤ) : ZMod C.n) * ((k : ℤ) : ZMod C.n) = 1 :=
    modInverse_cast_mul hp hk0 hkn
  have hES : ((s : ℤ) : ZMod C.n) * ((k : ℤ) : ZMod C.n) =
      ((e : ℤ) : ZMod C.n) + ((d : ℤ) : ZMod C.n) * ((r : ℤ) : ZMod C.n) := by
    rw [hs, intCast_emod_self, Int.cast_mul, Int.cast_add, Int.cast_mul]
    have hre : ((modInverse k (C.n : ℤ) : ℤ) : ZMod C.n) *
        (((e : ℤ) : ZMod C.n) + ((d : ℤ) : ZMod C.n) * ((r : ℤ) : ZMod C.n)) *
          ((k : ℤ) : ZMod C.n) =
        ((modInverse k (C.n : ℤ) : ℤ) : ZMod C.n) * ((k : ℤ) : ZMod C.n) *
          (((e : ℤ) : ZMod C.n) + ((d : ℤ) : ZMod C.n) * ((r : ℤ) : ZMod C.n)) := by
      ring
    rw [hre, hinv_k, one_mul]
  -- the common verification tail, for any in-range `s2` whose inverse times
  -- `s` is `1` (unflipped) or `-1` (flipped)
  have main : ∀ s2 : ℤ, 0 < s2 → s2 < (C.n : ℤ) →
      (((modInverse s2 (C.n : ℤ) : ℤ) : ZMod C.n) * ((s : ℤ) : ZMod C.n) = 1 ∨
       ((modInverse s2 (C.n : ℤ) : ℤ) : ZMod C.n) * ((s : ℤ) : ZMod C.n) = -1) →
      verifyRaw C e ⟨r, s2⟩ (C.intMul d C.G) = true := by
    intro s2 hs2pos hs2lt hcs
    simp only [verifyRaw]
    rw [if_neg (by omega)]
    rw [if_neg (by omega)]
    have hu1nn : 0 ≤ e * modInverse s2 (C.n : ℤ) % (C.n : ℤ) := Int.emod_nonneg _ hNne
    have hu2nn : 0 ≤ r * modInverse s2 (C.n : ℤ) % (C.n : ℤ) := Int.emod_nonneg _ hNne
    rw [Curve.multiplyTwo_G hC hu1nn hu2nn (le_of_lt hd0)]
    have hmcast : (((e * modInverse s2 (C.n : ℤ) % (C.n : ℤ)).toNat +
        (r * modInverse s2 (C.n : ℤ) % (C.n : ℤ)).toNat * d.toNat : ℕ) : ZMod C.n) =
        (((modInverse s2 (C.n : ℤ) : ℤ) : ZMod C.n) * ((s : ℤ) : ZMod C.n)) *
          ((k : ℤ) : ZMod C.n) := by
      push_cast
      rw [cast_toNat_zmod hu1nn, cast_toNat_zmod hu2nn, cast_toNat_zmod (le_of_lt hd0)]
      rw [intCast_emod_self, intCast_emod_self, Int.cast_mul, Int.cast_mul]
      have expand : ((e : ℤ) : ZMod C.n) * ((modInverse s2 (C.n : ℤ) : ℤ) : ZMod C.n) +
          ((r : ℤ) : ZMod C.n) * ((modInverse s2 (C.n : ℤ) : ℤ) : ZMod C.n) *
            ((d : ℤ) : ZMod C.n) =
          ((modInverse s2 (C.n : ℤ) : ℤ) : ZMod C.n) *
            (((e : ℤ) : ZMod C.n) + ((d : ℤ) : ZMod C.n) * ((r : ℤ) : ZMod C.n)) := by
        ring
      rw [expand, ← hES]
      ring
    rcases hcs with hcs | hcs
    · -- unflipped: the recomputed point is `k·G` itself
      have hcast : (((e * modInverse s2 (C.n : ℤ) % (C.n : ℤ)).toNat +
          (r * modInverse s2 (C.n : ℤ) % (C.n : ℤ)).toNat * d.toNat : ℕ) : ZMod C.n) =
          ((k.toNat : ℕ) : ZMod C.n) := by
        rw [hmcast, hcs, one_mul, cast_toNat_zmod (le_of_lt hk0)]
      rw [Curve.natMul_G_congr hC hcast]
      have hQk : C.natMul k.toNat C.G = C.intMul k C.G :=
        (Curve.intMul_nonneg (le_of_lt hk0) C.G).symm
      rw [hQk]
      rw [if_neg (by rw [Curve.isInfinity_eq_false hQ]; exact fun hcon => nomatch hcon)]
      rw [← hr]
      simp
    · -- flipped: the recomputed point is `(n - k)·G = -(k·G)`
      have hkle : k.toNat ≤ C.n := by omega
      have hcast : (((e * modInverse s2 (C.n : ℤ) % (C.n : ℤ)).toNat +
          (r * modInverse s2 (C.n : ℤ) % (C.n : ℤ)).toNat * d.toNat : ℕ) : ZMod C.n) =
          ((C.n - k.toNat : ℕ) : ZMod C.n) := by
        rw [hmcast, hcs, Nat.cast_sub hkle, ZMod.natCast_self, zero_sub,
          cast_toNat_zmod (le_of_lt hk0)]
        ring
      rw [Curve.natMul_G_congr hC hcast]
      have hne : C.natMul (C.n - k.toNat) C.G ≠ C.zero :=
        hC.G_order_min (C.n - k.toNat) (by omega) (by omega)
      have hQk : C.natMul k.toNat C.G = C.intMul k C.G :=
        (Curve.intMul_nonneg (le_of_lt hk0) C.G).symm
      rw [if_neg (by rw [Curve.isInfinity_eq_false hne]; exact fun hcon => nomatch hcon)]
      rw [Curve.neg_natMul_G hC hkle, hC.affineX_neg, hQk, ← hr]
      simp
  -- discharge the two flip cases through `main`
  by_cases hflip : (C.n : ℤ) / 2 < s
  · rw [if_pos hflip]
    refine main ((C.n : ℤ) - s) (by omega) (by omega) (Or.inr ?_)
    have hinv : ((modInverse ((C.n : ℤ) - s) (C.n : ℤ) : ℤ) : ZMod C.n) *
        (((C.n : ℤ) - s : ℤ) : ZMod C.n) = 1 :=
      modInverse_cast_mul hp (by omega) (by omega)
    have hNcast : ((((C.n : ℤ)) : ℤ) : ZMod C.n) = 0 := by
      rw [Int.cast_natCast, ZMod.natCast_self]
    rw [Int.cast_sub, hNcast, zero_sub, mul_neg] at hinv
    exact neg_eq_iff_eq_neg.1 hinv
  · rw [if_neg hflip]
    refine main s hspos hslt (Or.inl ?_)
    exact modInverse_cast_mul hp hspos hslt

end SignLemmas

section RoundTripLemmas

variable {Pt : Type} [DecidableEq Pt] {C : Curve Pt}

/-- Any successful `sign` (with any nonce argument) verifies against `d·G`
and the original digest. -/
theorem sign_ok_verify {hmac : List ℕ → List ℕ → List ℕ} {sha256 : List ℕ → List ℕ}
    {hash : List ℕ} {d : ℤ} {nonce : Option ℕ} {fuel : ℕ} {sig : ECSignature}
    (hC : C.Good) (hd0 : 0 < d)
    (h : sign C hmac sha256 hash d nonce fuel = .ok sig) :
    verify C hash sig (C.intMul d C.G) = true := by
  obtain ⟨k, r, s, hk, hrs, hsig⟩ := sign_ok_inv h
  obtain ⟨hk0, hkn, _⟩ := deterministicGenerateK_ok hk
  subst hsig
  simp only [verify]
  exact verifyRaw_sign_aux hC hd0 hk0 hkn hrs

/-- The source `verifyRaw` and its specification restatement agree on all
inputs. -/
theorem verifyRaw_eq_spec (e : ℤ) (sig : ECSignature) (Q : Pt) :
    verifyRaw C e sig Q = verifyRawSpec C e sig Q := by
  simp only [verifyRaw, verifyRawSpec]
  by_cases hr : 1 ≤ sig.r ∧ sig.r ≤ (C.n : ℤ) - 1
  · by_cases hs : 1 ≤ sig.s ∧ sig.s ≤ (C.n : ℤ) - 1
    · rw [if_neg (show ¬(sig.r ≤ 0 ∨ (C.n : ℤ) ≤ sig.r) by omega),
        if_neg (show ¬(sig.s ≤ 0 ∨ (C.n : ℤ) ≤ sig.s) by omega), if_pos hr, if_pos hs]
    · rw [if_neg (show ¬(sig.r ≤ 0 ∨ (C.n : ℤ) ≤ sig.r) by omega),
        if_pos (show sig.s ≤ 0 ∨ (C.n : ℤ) ≤ sig.s by omega), if_pos hr, if_neg hs]
  · rw [if_pos (show sig.r ≤ 0 ∨ (C.n : ℤ) ≤ sig.r by omega), if_neg hr]

end RoundTripLemmas

section CalcLemmas

variable {Pt : Type} [DecidableEq Pt] {C : Curve Pt}

/-- A successful `calcGo` found the first matching recovery id. -/
theorem calcGo_ok {e : ℤ} {sig : ECSignature} {Q : Pt} {rem i0 i : ℕ}
    (h : calcGo C e sig Q rem i0 = .ok i) :
    i0 ≤ i ∧ i < i0 + rem ∧ recoverPubKey C e sig i = .ok Q ∧
      ∀ j, i0 ≤ j → j < i → ∃ Qj, recoverPubKey C e sig j = .ok Qj ∧ Qj ≠ Q := by
  induction rem generalizing i0 with
  | zero => cases h
  | succ rem ih =>
    rw [calcGo] at h
    split at h
    · cases h
    · next Qp hQp =>
      split at h
      · next heq =>
        cases h
        exact ⟨le_refl _, by omega, by rw [hQp, heq], fun j hj1 hj2 => by omega⟩
      · next hne =>
        obtain ⟨h1, h2, h3, h4⟩ := ih h
        refine ⟨by omega, by omega, h3, ?_⟩
        intro j hj1 hj2
        by_cases hji : j = i0
        · subst hji
          exact ⟨Qp, hQp, hne⟩
        · exact h4 j (by omega) hj2

/-- When every id in the window recovers a point different from `Q`, the
loop falls through to `RecoveryNotFound`. -/
theorem calcGo_notfound {e : ℤ} {sig : ECSignature} {Q : Pt} {rem i0 : ℕ}
    (h : ∀ j, i0 ≤ j → j < i0 + rem →
      ∃ Qj, recoverPubKey C e sig j = .ok Qj ∧ Qj ≠ Q) :
    calcGo C e sig Q rem i0 = .error .recoveryNotFound := by
  induction rem generalizing i0 with
  | zero => rfl
  | succ rem ih =>
    obtain ⟨Q0, hQ0, hne⟩ := h i0 (le_refl _) (by omega)
    simp only [calcGo, hQ0]
    rw [if_neg hne]
    exact ih (fun j hj1 hj2 => h j (by omega) (by omega))

/-- When some id fails before any match, the loop propagates that error. -/
theorem calcGo_err {e : ℤ} {sig : ECSignature} {Q : Pt} {rem i0 j : ℕ}
    {err : ECError}
    (hj : recoverPubKey C e sig j = .error err) (hj1 : i0 ≤ j) (hj2 : j < i0 + rem)
    (hpre : ∀ j2, i0 ≤ j2 → j2 < j →
      ∃ Qj, recoverPubKey C e sig j2 = .ok Qj ∧ Qj ≠ Q) :
    calcGo C e sig Q rem i0 = .error err := by
  induction rem generalizing i0 with
  | zero => omega
  | succ rem ih =>
    by_cases hji : j = i0
    · subst hji
      simp only [calcGo, hj]
    · obtain ⟨Q0, hQ0, hne⟩ := hpre i0 (le_refl _) (by omega)
      simp only [calcGo, hQ0]
      rw [if_neg hne]
      exact ih (by omega) (by omega) (fun j2 ha hb => hpre j2 (by omega) hb)

/-- The source's two-bit mask check `i & 3 === i` holds exactly on `i < 4`. -/
theorem and_three_eq_self_iff (i : ℕ) : i &&& 3 = i ↔ i < 4 := by
  constructor
  · intro h
    by_contra hge
    push_neg at hge
    have hle : i &&& 3 ≤ 3 := Nat.and_le_right
    omega
  · intro h
    interval_cases i <;> decide

end CalcLemmas

section ToyLaws

theorem toyCurve_good : toyCurve.Good :=
  ⟨by decide, by decide, by decide, by decide, by decide, by decide, by decide, by decide⟩

theorem toyCurve2_good : toyCurve2.Good :=
  ⟨by decide, by decide, by decide, by decide, by decide, by decide, by decide, by decide⟩

end ToyLaws

section RecoverUnfolding

variable {Pt : Type} [DecidableEq Pt] {C : Curve Pt}

/-- Unfolding of `recoverPubKey` on valid inputs when the candidate point
reconstruction fails. -/
theorem recoverPubKey_eq_of_none {e : ℤ} {sig : ECSignature} {i : ℕ}
    (hi4 : i < 4) (hr : 0 < sig.r ∧ sig.r < (C.n : ℤ))
    (hs : 0 < sig.s ∧ sig.s < (C.n : ℤ))
    (hR : C.pointFromX (decide (i &&& 1 = 1))
      (if decide (0 < i >>> 1) = true then (sig.r + (C.n : ℤ)).toNat else sig.r.toNat) =
        none) :
    recoverPubKey C e sig i = .error .invalidCurvePoint := by
  simp only [recoverPubKey]
  rw [if_pos ((and_three_eq_self_iff i).2 hi4), if_pos hr, if_pos hs, hR]

/-- Unfolding of `recoverPubKey` on valid inputs when the candidate point
reconstruction succeeds. -/
theorem recoverPubKey_eq_of_some {e : ℤ} {sig : ECSignature} {i : ℕ} {R : Pt}
    (hi4 : i < 4) (hr : 0 < sig.r ∧ sig.r < (C.n : ℤ))
    (hs : 0 < sig.s ∧ sig.s < (C.n : ℤ))
    (hR : C.pointFromX (decide (i &&& 1 = 1))
      (if decide (0 < i >>> 1) = true then (sig.r + (C.n : ℤ)).toNat else sig.r.toNat) =
        some R) :
    recoverPubKey C e sig i =
      (if C.isInfinity (C.intMul (C.n : ℤ) R) = true then
        (if C.isInfinity (C.intMul (modInverse sig.r (C.n : ℤ))
              (C.multiplyTwo sig.s R (-e % (C.n : ℤ)) C.G)) = true then
          .error .invalidCurvePoint
        else .ok (C.intMul (modInverse sig.r (C.n : ℤ))
              (C.multiplyTwo sig.s R (-e % (C.n : ℤ)) C.G)))
      else .error .recoveryFailure) := by
  simp only [recoverPubKey]
  rw [if_pos ((and_three_eq_self_iff i).2 hi4), if_pos hr, if_pos hs, hR]

end RecoverUnfolding

section RecoverExists

variable {Pt : Type} [DecidableEq Pt] {C : Curve Pt}

/-- For a signature assembled by `sign` from an accepted nonce `k` (with
`0 < d < n`, `0 < k < n`), some recovery id in `[0, 3]` reconstructs exactly
`Q = d·G`: the candidate point is `k·G` (or its negation when the low-S flip
replaced `s`), reachable through `x = r` or `x = r + n` and one of the two
parity bits. -/
theorem recover_exists (hC : C.Good) (hRec : C.Recoverable) {e d k r s : ℤ}
    (hd0 : 0 < d) (hdn : d < (C.n : ℤ)) (hk0 : 0 < k) (hkn : k < (C.n : ℤ))
    (hRS : signRS C e d k = some (r, s)) :
    ∃ i, i < 4 ∧
      recoverPubKey C e ⟨r, if (C.n : ℤ) / 2 < s then (C.n : ℤ) - s else s⟩ i =
        .ok (C.intMul d C.G) := by
  obtain ⟨hQ, hr, hrne, hs, hsne⟩ := signRS_some hRS
  have hp : Nat.Prime C.n := hC.n_prime
  haveI : Fact (Nat.Prime C.n) := ⟨hp⟩
  have hn2 : 2 ≤ C.n := hp.two_le
  have hN0 : (0 : ℤ) < (C.n : ℤ) := by exact_mod_cast (by omega : 0 < C.n)
  have hNne : ((C.n : ℤ)) ≠ 0 := by omega
  have hrpos : 0 < r := by
    have := Int.emod_nonneg ((C.affineX (C.intMul k C.G) : ℤ)) hNne
    rw [← hr] at this
    omega
  have hrlt : r < (C.n : ℤ) := by
    have := Int.emod_lt_of_pos ((C.affineX (C.intMul k C.G) : ℤ)) hN0
    rw [← hr] at this
    exact this
  have hspos : 0 < s := by
    have := Int.emod_nonneg (modInverse k (C.n : ℤ) * (e + d * r)) hNne
    rw [← hs] at this
    omega
  have hslt : s < (C.n : ℤ) := by
    have := Int.emod_lt_of_pos (modInverse k (C.n : ℤ) * (e + d * r)) hN0
    rw [← hs] at this
    exact this
  have hinv_k := modInverse_cast_mul hp hk0 hkn
  have hES : ((s : ℤ) : ZMod C.n) * ((k : ℤ) : ZMod C.n) =
      ((e : ℤ) : ZMod C.n) + ((d : ℤ) : ZMod C.n) * ((r : ℤ) : ZMod C.n) := by
    rw [hs, intCast_emod_self, Int.cast_mul, Int.cast_add, Int.cast_mul]
    have hre : ((modInverse k (C.n : ℤ) : ℤ) : ZMod C.n) *
        (((e : ℤ) : ZMod C.n) + ((d : ℤ) : ZMod C.n) * ((r : ℤ) : ZMod C.n)) *
          ((k : ℤ) : ZMod C.n) =
        ((modInverse k (C.n : ℤ) : ℤ) : ZMod C.n) * ((k : ℤ) : ZMod C.n) *
          (((e : ℤ) : ZMod C.n) + ((d : ℤ) : ZMod C.n) * ((r : ℤ) : ZMod C.n)) := by
      ring
    rw [hre, hinv_k, one_mul]
  set s2 : ℤ := if (C.n : ℤ) / 2 < s then (C.n : ℤ) - s else s with hs2def
  have hs2pos : 0 < s2 := by rw [hs2def]; split <;> omega
  have hs2lt : s2 < (C.n : ℤ) := by rw [hs2def]; split <;> omega
  set j : ℕ := if (C.n : ℤ) / 2 < s then C.n - k.toNat else k.toNat with hjdef
  have hj0 : 0 < j := by rw [hjdef]; split <;> omega
  have hjlt : j < C.n := by rw [hjdef]; split <;> omega
  have hsj : ((s2 : ℤ) : ZMod C.n) * ((j : ℕ) : ZMod C.n) =
      ((e : ℤ) : ZMod C.n) + ((d : ℤ) : ZMod C.n) * ((r : ℤ) : ZMod C.n) := by
    rw [hs2def, hjdef]
    by_cases hflip : (C.n : ℤ) / 2 < s
    · rw [if_pos hflip, if_pos hflip]
      have h1 : (((C.n : ℤ) - s : ℤ) : ZMod C.n) = -((s : ℤ) : ZMod C.n) := by
        rw [Int.cast_sub, Int.cast_natCast, ZMod.natCast_self, zero_sub]
      have h2 : ((C.n - k.toNat : ℕ) : ZMod C.n) = -((k : ℤ) : ZMod C.n) := by
        rw [Nat.cast_sub (by omega), ZMod.natCast_self, zero_sub,
          cast_toNat_zmod (le_of_lt hk0)]
      rw [h1, h2, neg_mul_neg]
      exact hES
    · rw [if_neg hflip, if_neg hflip, cast_toNat_zmod (le_of_lt hk0)]
      exact hES
  have hRroot : C.natMul j C.G ≠ C.zero := hC.G_order_min j hjlt hj0
  have hXR : C.affineX (C.natMul j C.G) = C.affineX (C.intMul k C.G) := by
    rw [hjdef]
    by_cases hflip : (C.n : ℤ) / 2 < s
    · rw [if_pos hflip, Curve.neg_natMul_G hC (by omega : k.toNat ≤ C.n),
        hC.affineX_neg, ← Curve.intMul_nonneg (le_of_lt hk0)]
    · rw [if_neg hflip, ← Curve.intMul_nonneg (le_of_lt hk0)]
  obtain ⟨b, hb⟩ := hRec.pointFromX_self (C.natMul j C.G) hRroot
  have hrX : r = ((C.affineX (C.natMul j C.G) : ℕ) : ℤ) % (C.n : ℤ) := by
    rw [hXR]
    exact hr
  have hX2n : C.affineX (C.natMul j C.G) < 2 * C.n := hRec.affineX_lt _
  have hnR : C.intMul ((C.n : ℤ)) (C.natMul j C.G) = C.zero := by
    rw [Curve.intMul_nonneg (Int.natCast_nonneg _), Int.toNat_natCast]
    exact hRec.order_all _
  have hmi_nn : 0 ≤ modInverse r (C.n : ℤ) := Int.emod_nonneg _ hNne
  have heNeg_nn : 0 ≤ -e % (C.n : ℤ) := Int.emod_nonneg _ hNne
  have hQrec : C.intMul (modInverse r (C.n : ℤ))
      (C.multiplyTwo s2 (C.natMul j C.G) (-e % (C.n : ℤ)) C.G) = C.intMul d C.G := by
    rw [Curve.multiplyTwo, Curve.intMul_nonneg (le_of_lt hs2pos) (C.natMul j C.G),
      Curve.intMul_nonneg heNeg_nn C.G, ← Curve.natMul_mul hC, ← Curve.natMul_add hC,
      Curve.intMul_nonneg hmi_nn
        (C.natMul (s2.toNat * j + (-e % (C.n : ℤ)).toNat) C.G),
      ← Curve.natMul_mul hC, Curve.intMul_nonneg (le_of_lt hd0) C.G]
    refine Curve.natMul_G_congr hC ?_
    push_cast
    rw [cast_toNat_zmod (le_of_lt hs2pos), cast_toNat_zmod heNeg_nn,
      cast_toNat_zmod hmi_nn, cast_toNat_zmod (le_of_lt hd0)]
    have heN : ((-e % (C.n : ℤ) : ℤ) : ZMod C.n) = -((e : ℤ) : ZMod C.n) := by
      rw [intCast_emod_self, Int.cast_neg]
    rw [heN, hsj]
    have hsum : ((e : ℤ) : ZMod C.n) + ((d : ℤ) : ZMod C.n) * ((r : ℤ) : ZMod C.n) +
        -((e : ℤ) : ZMod C.n) = ((d : ℤ) : ZMod C.n) * ((r : ℤ) : ZMod C.n) := by
      ring
    rw [hsum]
    have hinv_r := modInverse_cast_mul hp hrpos hrlt
    have hswap : ((modInverse r (C.n : ℤ) : ℤ) : ZMod C.n) *
        (((d : ℤ) : ZMod C.n) * ((r : ℤ) : ZMod C.n)) =
        ((d : ℤ) : ZMod C.n) *
          (((modInverse r (C.n : ℤ) : ℤ) : ZMod C.n) * ((r : ℤ) : ZMod C.n)) := by
      ring
    rw [hswap, hinv_r, mul_one]
  have hdG_ne : C.intMul d C.G ≠ C.zero := by
    rw [Curve.intMul_nonneg (le_of_lt hd0)]
    exact hC.G_order_min d.toNat (by omega) (by omega)
  have branch : ∀ i : ℕ, i < 4 → decide (i &&& 1 = 1) = b →
      ((if decide (0 < i >>> 1) = true then (r + (C.n : ℤ)).toNat else r.toNat) =
        C.affineX (C.natMul j C.G)) →
      recoverPubKey C e ⟨r, s2⟩ i = .ok (C.intMul d C.G) := by
    intro i hi4 hbit hxsel
    have hpfx : C.pointFromX (decide (i &&& 1 = 1))
        (if decide (0 < i >>> 1) = true then (r + (C.n : ℤ)).toNat else r.toNat) =
          some (C.natMul j C.G) := by
      rw [hbit, hxsel]
      exact hb
    rw [recoverPubKey_eq_of_some hi4 ⟨hrpos, hrlt⟩ ⟨hs2pos, hs2lt⟩ hpfx]
    rw [if_pos (Curve.isInfinity_true_iff.2 hnR)]
    rw [hQrec]
    rw [if_neg (by rw [Curve.isInfinity_eq_false hdG_ne]; exact fun hcon => nomatch hcon)]
  by_cases hsec : C.affineX (C.natMul j C.G) < C.n
  · have hre : r = ((C.affineX (C.natMul j C.G) : ℕ) : ℤ) := by
      rw [hrX, Int.emod_eq_of_lt (Int.natCast_nonneg _) (by exact_mod_cast hsec)]
    have hxr : r.toNat = C.affineX (C.natMul j C.G) := by omega
    cases b with
    | false =>
      exact ⟨0, by omega, branch 0 (by omega) (by decide)
        (by rw [if_neg (by decide)]; exact hxr)⟩
    | true =>
      exact ⟨1, by omega, branch 1 (by omega) (by decide)
        (by rw [if_neg (by decide)]; exact hxr)⟩
  · have hXge : (C.n : ℤ) ≤ ((C.affineX (C.natMul j C.G) : ℕ) : ℤ) := by
      exact_mod_cast not_lt.1 hsec
    have hX2 : ((C.affineX (C.natMul j C.G) : ℕ) : ℤ) < 2 * (C.n : ℤ) := by
      exact_mod_cast hX2n
    have hmod : ((C.affineX (C.natMul j C.G) : ℕ) : ℤ) % (C.n : ℤ) =
        ((C.affineX (C.natMul j C.G) : ℕ) : ℤ) - (C.n : ℤ) := by
      have h1 : ((C.affineX (C.natMul j C.G) : ℕ) : ℤ) % (C.n : ℤ) =
          (((C.affineX (C.natMul j C.G) : ℕ) : ℤ) - (C.n : ℤ)) % (C.n : ℤ) := by
        conv_lhs => rw [show ((C.affineX (C.natMul j C.G) : ℕ) : ℤ) =
          (((C.affineX (C.natMul j C.G) : ℕ) : ℤ) - (C.n : ℤ)) + (C.n : ℤ) * 1 by ring]
        rw [Int.add_mul_emod_self_left]
      rw [h1, Int.emod_eq_of_lt (by omega) (by omega)]
    have hre : r = ((C.affineX (C.natMul j C.G) : ℕ) : ℤ) - (C.n : ℤ) := by
      rw [hrX, hmod]
    have hxr2 : (r + (C.n : ℤ)).toNat = C.affineX (C.natMul j C.G) := by omega
    cases b with
    | false =>
      exact ⟨2, by omega, branch 2 (by omega) (by decide)
        (by rw [if_pos (by decide)]; exact hxr2)⟩
    | true =>
      exact ⟨3, by omega, branch 3 (by omega) (by decide)
        (by rw [if_pos (by decide)]; exact hxr2)⟩

theorem toyCurve_recoverable : toyCurve.Recoverable :=
  ⟨by decide, by decide, by decide⟩

end RecoverExists

section Claims

/-- Claim C1: for every contract-conforming curve, every private scalar `d`
with `0 < d < n`, and every 32-byte digest, the signature produced by `sign`
with no nonce argument verifies against the corresponding public key:
`verify(curve, h, sign(curve, h, d), d·G) = true`. -/
theorem sign_verify_roundtrip {Pt : Type} [DecidableEq Pt] {C : Curve Pt}
    (hC : C.Good) (hmac : List ℕ → List ℕ → List ℕ) (sha256 : List ℕ → List ℕ)
    (hash : List ℕ) (d : ℤ) (hd0 : 0 < d) (hdn : d < (C.n : ℤ))
    (hlen : hash.length = 32) (fuel : ℕ) (sig : ECSignature)
    (hsig : sign C hmac sha256 hash d none fuel = .ok sig) :
    verify C hash sig (C.intMul d C.G) = true :=
  sign_ok_verify hC hd0 hsig

theorem sign_verify_roundtrip_witness :
    verify toyCurve (List.replicate 31 0 ++ [2]) ⟨3, 2⟩
      (toyCurve.intMul 2 toyCurve.G) = true :=
  sign_verify_roundtrip toyCurve_good toyHmac toySha (List.replicate 31 0 ++ [2]) 2
    (by decide) (by decide) (by decide) 1 ⟨3, 2⟩ (by decide)

/-- Claim C2: `verifyRaw` is a total boolean function (verification failure
is `false`, never an exception): it returns `false` whenever `r` or `s` lies
outside `[1, n-1]`, it agrees everywhere with the specification formula
(`c = s⁻¹ mod n`, `u1 = e·c mod n`, `u2 = r·c mod n`, `R = u1·G + u2·Q` in a
single combined double-scalar multiplication, reject `R` at infinity, accept
iff `R.x mod n = r`), and `verify(curve, digest, sig, Q)` equals
`verifyRaw(curve, int(digest), sig, Q)`. -/
theorem verifyRaw_spec_conformance {Pt : Type} [DecidableEq Pt] (C : Curve Pt)
    (e : ℤ) (sig : ECSignature) (Q : Pt) (hash : List ℕ) :
    verifyRaw C e sig Q = verifyRawSpec C e sig Q ∧
    ((sig.r ≤ 0 ∨ (C.n : ℤ) ≤ sig.r ∨ sig.s ≤ 0 ∨ (C.n : ℤ) ≤ sig.s) →
      verifyRaw C e sig Q = false) ∧
    verify C hash sig Q = verifyRaw C (fromBuffer hash) sig Q := by
  refine ⟨verifyRaw_eq_spec e sig Q, ?_, rfl⟩
  intro hbad
  simp only [verifyRaw]
  by_cases h1 : sig.r ≤ 0 ∨ (C.n : ℤ) ≤ sig.r
  · rw [if_pos h1]
  · rw [if_neg h1, if_pos (show sig.s ≤ 0 ∨ (C.n : ℤ) ≤ sig.s by omega)]

theorem verifyRaw_spec_conformance_witness :
    verifyRaw toyCurve 0 ⟨0, 1⟩ (1 : ZMod 7) = false :=
  (verifyRaw_spec_conformance toyCurve 0 ⟨0, 1⟩ (1 : ZMod 7) []).2.1 (by decide)

/-- Claim C3: every signature returned by `sign` is canonical: `r` and `s`
both lie in `[1, n-1]` and `s ≤ n/2`, because after the acceptance predicate
succeeds (which admits only `r ≠ 0`, `s ≠ 0`) `sign` replaces `s` with
`n - s` whenever `s > n/2`. -/
theorem sign_canonical_low_s {Pt : Type} [DecidableEq Pt] {C : Curve Pt}
    (hC : C.Good) (hmac : List ℕ → List ℕ → List ℕ) (sha256 : List ℕ → List ℕ)
    (hash : List ℕ) (d : ℤ) (nonce : Option ℕ) (fuel : ℕ) (sig : ECSignature)
    (hsig : sign C hmac sha256 hash d nonce fuel = .ok sig) :
    1 ≤ sig.r ∧ sig.r ≤ (C.n : ℤ) - 1 ∧ 1 ≤ sig.s ∧ sig.s ≤ (C.n : ℤ) - 1 ∧
      sig.s ≤ (C.n : ℤ) / 2 := by
  obtain ⟨k, r, s, hk, hrs, hval⟩ := sign_ok_inv hsig
  obtain ⟨_, hr, hrne, hs, hsne⟩ := signRS_some hrs
  have hp := hC.n_prime
  have hn2 : 2 ≤ C.n := hp.two_le
  have hN0 : (0 : ℤ) < (C.n : ℤ) := by exact_mod_cast (by omega : 0 < C.n)
  have hNne : ((C.n : ℤ)) ≠ 0 := by omega
  have h1 := Int.emod_nonneg ((C.affineX (C.intMul k C.G) : ℤ)) hNne
  have h2 := Int.emod_lt_of_pos ((C.affineX (C.intMul k C.G) : ℤ)) hN0
  have h3 := Int.emod_nonneg (modInverse k (C.n : ℤ) * (fromBuffer hash + d * r)) hNne
  have h4 := Int.emod_lt_of_pos (modInverse k (C.n : ℤ) * (fromBuffer hash + d * r)) hN0
  rw [← hr] at h1 h2
  rw [← hs] at h3 h4
  rw [hval]
  refine ⟨?_, ?_, ?_, ?_, ?_⟩
  · show 1 ≤ r
    omega
  · show r ≤ (C.n : ℤ) - 1
    omega
  · show 1 ≤ (if (C.n : ℤ) / 2 < s then (C.n : ℤ) - s else s)
    split <;> omega
  · show (if (C.n : ℤ) / 2 < s then (C.n : ℤ) - s else s) ≤ (C.n : ℤ) - 1
    split <;> omega
  · show (if (C.n : ℤ) / 2 < s then (C.n : ℤ) - s else s) ≤ (C.n : ℤ) / 2
    split <;> omega

theorem sign_canonical_low_s_witness :
    1 ≤ (⟨3, 2⟩ : ECSignature).r ∧ (⟨3, 2⟩ : ECSignature).r ≤ (toyCurve.n : ℤ) - 1 ∧
    1 ≤ (⟨3, 2⟩ : ECSignature).s ∧ (⟨3, 2⟩ : ECSignature).s ≤ (toyCurve.n : ℤ) - 1 ∧
    (⟨3, 2⟩ : ECSignature).s ≤ (toyCurve.n : ℤ) / 2 :=
  sign_canonical_low_s toyCurve_good toyHmac toySha (List.replicate 31 0 ++ [2]) 2
    none 1 ⟨3, 2⟩ (by decide)

/-- Claim C4: for every curve, 32-byte digest, scalar `d`, and acceptance
predicate, `deterministicGenerateK` follows the RFC 6979 derivation
specialised to 256-bit digests (as restated from the specification in
`genKSpec`: `V = 0x01×32`, `K = 0x00×32`, two K/V update rounds keyed with
separator bytes `0x00` and `0x01` over `d_bytes(32) ‖ digest`, then a retry
loop re-keying with `V ‖ 0x00` after each rejection), and whenever it
returns, the returned scalar `T` satisfies `1 ≤ T ≤ n-1` and
`accept(T) = true`. -/
theorem deterministicGenerateK_conformance {Pt : Type} (C : Curve Pt)
    (hmac : List ℕ → List ℕ → List ℕ) (sha256 : List ℕ → List ℕ)
    (hash : List ℕ) (d : ℤ) (accept : ℤ → Bool) (fuel : ℕ) (T : ℤ)
    (hlen : hash.length = 32)
    (hT : deterministicGenerateK C hmac sha256 hash d accept none fuel = .ok T) :
    (1 ≤ T ∧ T ≤ (C.n : ℤ) - 1 ∧ accept T = true) ∧
    deterministicGenerateK C hmac sha256 hash d accept none fuel =
      genKSpec C hmac hash d accept fuel := by
  obtain ⟨h1, h2, h3⟩ := deterministicGenerateK_ok hT
  refine ⟨⟨by omega, by omega, h3⟩, ?_⟩
  simp only [deterministicGenerateK, genKSpec]
  rw [if_pos hlen]
  exact genKLoop_eq_spec hmac accept fuel _ _

theorem deterministicGenerateK_conformance_witness :
    (1 ≤ (3 : ℤ) ∧ (3 : ℤ) ≤ (toyCurve.n : ℤ) - 1 ∧ (fun _ => true) (3 : ℤ) = true) ∧
    deterministicGenerateK toyCurve toyHmac toySha (List.replicate 32 0) 2
        (fun _ => true) none 1 =
      genKSpec toyCurve toyHmac (List.replicate 32 0) 2 (fun _ => true) 1 :=
  deterministicGenerateK_conformance toyCurve toyHmac toySha (List.replicate 32 0) 2
    (fun _ => true) 1 3 (by decide) (by decide)

/-- Claim C5 counterexample: on a concrete conforming curve (the order-7
group, laws included below), with `d = 2` and the 32-byte digest of integer
value 4, `sign` succeeds with the signature `(3, 1)`, yet
`calcPubKeyRecoveryParam` already fails with `InvalidCurvePoint` while
trying recovery id 0 — that id's candidate key `r⁻¹·(s·R + eNeg·G)` is the
point at infinity, so `curve.validate` throws — before reaching id 1, which
would recover `Q = d·G`.  Hence no `i = calcPubKeyRecoveryParam(...)` is
produced and the claimed recovery round trip fails. -/
theorem recovery_roundtrip_counterexample :
    toyCurve.Good ∧ (0 : ℤ) < 2 ∧ (2 : ℤ) < (toyCurve.n : ℤ) ∧
    (List.replicate 31 0 ++ [4]).length = 32 ∧
    sign toyCurve toyHmac toySha (List.replicate 31 0 ++ [4]) 2 none 1 = .ok ⟨3, 1⟩ ∧
    fromBuffer (List.replicate 31 0 ++ [4]) = 4 ∧
    recoverPubKey toyCurve 4 ⟨3, 1⟩ 1 = .ok (toyCurve.intMul 2 toyCurve.G) ∧
    calcPubKeyRecoveryParam toyCurve 4 ⟨3, 1⟩ (toyCurve.intMul 2 toyCurve.G) =
      .error .invalidCurvePoint :=
  ⟨toyCurve_good, by decide, by decide, by decide, by decide, by decide, by decide,
    by decide⟩

/-- Claim C5 (amended): for every valid private scalar `d` and 32-byte digest
`h`, with `Q = d·G` and `sig = sign(curve, h, d)`: some recovery id
`i ∈ [0, 3]` satisfies `recoverPubKey(curve, e, sig, i) = Q`, and whenever
`calcPubKeyRecoveryParam(curve, e, sig, Q)` returns an id `i`,
`recoverPubKey(curve, e, sig, i)` returns a point equal to `Q`.  The
unconditional round trip of the claim fails: `calcPubKeyRecoveryParam` can
abort with an error from an earlier recovery id whose candidate
reconstruction fails — see the counterexample — even though an id
recovering `Q` exists. -/
theorem recoverPubKey_after_calc {Pt : Type} [DecidableEq Pt] {C : Curve Pt}
    (hC : C.Good) (hRec : C.Recoverable)
    (hmac : List ℕ → List ℕ → List ℕ) (sha256 : List ℕ → List ℕ)
    (hash : List ℕ) (d : ℤ) (hd0 : 0 < d) (hdn : d < (C.n : ℤ))
    (fuel : ℕ) (sig : ECSignature)
    (hsig : sign C hmac sha256 hash d none fuel = .ok sig) :
    (∃ i, i < 4 ∧
      recoverPubKey C (fromBuffer hash) sig i = .ok (C.intMul d C.G)) ∧
    (∀ i, calcPubKeyRecoveryParam C (fromBuffer hash) sig (C.intMul d C.G) = .ok i →
      recoverPubKey C (fromBuffer hash) sig i = .ok (C.intMul d C.G)) := by
  obtain ⟨k, r, s, hk, hrs, hval⟩ := sign_ok_inv hsig
  obtain ⟨hk0, hkn, _⟩ := deterministicGenerateK_ok hk
  subst hval
  exact ⟨recover_exists hC hRec hd0 hdn hk0 hkn hrs,
    fun i hi => (calcGo_ok hi).2.2.1⟩

theorem recoverPubKey_after_calc_witness :
    (∃ i, i < 4 ∧
      recoverPubKey toyCurve (fromBuffer (List.replicate 32 0)) ⟨3, 1⟩ i =
        .ok (toyCurve.intMul 1 toyCurve.G)) ∧
    (∀ i, calcPubKeyRecoveryParam toyCurve (fromBuffer (List.replicate 32 0)) ⟨3, 1⟩
        (toyCurve.intMul 1 toyCurve.G) = .ok i →
      recoverPubKey toyCurve (fromBuffer (List.replicate 32 0)) ⟨3, 1⟩ i =
        .ok (toyCurve.intMul 1 toyCurve.G)) :=
  recoverPubKey_after_calc toyCurve_good toyCurve_recoverable toyHmac toySha
    (List.replicate 32 0) 1 (by decide) (by decide) 1 ⟨3, 1⟩ (by decide)

/-- Claim C6: `recoverPubKey` fails with `InputValidation` if and only if the
recovery id is outside `[0, 3]` or `r` or `s` lies outside `(0, n)`; for
valid inputs it reconstructs `R` from `x = r + n` (bit 1 of the id set) or
`x = r`, with the Y parity given by bit 0, fails with `RecoveryFailure` when
`n·R` is not the point at infinity, computes `eNeg = (-e) mod n` landing in
`[0, n-1]`, and returns `Q = r⁻¹·(s·R + eNeg·G)` after validating `Q` as a
non-infinite point (`InvalidCurvePoint` otherwise). -/
theorem recoverPubKey_spec {Pt : Type} [DecidableEq Pt] (C : Curve Pt)
    (hn : 0 < C.n) (e : ℤ) (sig : ECSignature) (i : ℕ) :
    (recoverPubKey C e sig i = .error .inputValidation ↔
      (3 < i ∨ ¬(0 < sig.r ∧ sig.r < (C.n : ℤ)) ∨ ¬(0 < sig.s ∧ sig.s < (C.n : ℤ)))) ∧
    (0 ≤ -e % (C.n : ℤ) ∧ -e % (C.n : ℤ) < (C.n : ℤ)) ∧
    (∀ R : Pt, i < 4 → (0 < sig.r ∧ sig.r < (C.n : ℤ)) →
      (0 < sig.s ∧ sig.s < (C.n : ℤ)) →
      C.pointFromX (decide (i &&& 1 = 1))
          (if decide (0 < i >>> 1) = true then (sig.r + (C.n : ℤ)).toNat
           else sig.r.toNat) = some R →
      (C.intMul (C.n : ℤ) R ≠ C.zero →
        recoverPubKey C e sig i = .error .recoveryFailure) ∧
      (C.intMul (C.n : ℤ) R = C.zero →
        recoverPubKey C e sig i =
          (if C.intMul (modInverse sig.r (C.n : ℤ))
                (C.multiplyTwo sig.s R (-e % (C.n : ℤ)) C.G) = C.zero then
            .error .invalidCurvePoint
          else .ok (C.intMul (modInverse sig.r (C.n : ℤ))
                (C.multiplyTwo sig.s R (-e % (C.n : ℤ)) C.G))))) := by
  have hN0 : (0 : ℤ) < (C.n : ℤ) := by exact_mod_cast hn
  refine ⟨⟨?_, ?_⟩, ⟨Int.emod_nonneg _ (by omega), Int.emod_lt_of_pos _ hN0⟩, ?_⟩
  · -- an InputValidation failure means one of the three leading checks fired
    intro herr
    by_contra hgood
    push_neg at hgood
    obtain ⟨hi4, hr, hs⟩ := hgood
    cases hpfx : C.pointFromX (decide (i &&& 1 = 1))
        (if decide (0 < i >>> 1) = true then (sig.r + (C.n : ℤ)).toNat
         else sig.r.toNat) with
    | none =>
      rw [recoverPubKey_eq_of_none (by omega) hr hs hpfx] at herr
      simp at herr
    | some R =>
      rw [recoverPubKey_eq_of_some (by omega) hr hs hpfx] at herr
      split at herr
      · split at herr <;> simp at herr
      · simp at herr
  · -- conversely each of the three leading checks throws InputValidation
    intro hbad
    simp only [recoverPubKey]
    rcases hbad with h | h | h
    · rw [if_neg (fun hmask => by
        have := (and_three_eq_self_iff i).1 hmask
        omega)]
    · by_cases hmask : i &&& 3 = i
      · rw [if_pos hmask, if_neg h]
      · rw [if_neg hmask]
    · by_cases hmask : i &&& 3 = i
      · by_cases hr : 0 < sig.r ∧ sig.r < (C.n : ℤ)
        · rw [if_pos hmask, if_pos hr, if_neg h]
        · rw [if_pos hmask, if_neg hr]
      · rw [if_neg hmask]
  · -- behaviour on valid inputs once the candidate `R` is reconstructed
    intro R hi4 hr hs hR
    rw [recoverPubKey_eq_of_some hi4 hr hs hR]
    constructor
    · intro hnR
      rw [if_neg (by rw [Curve.isInfinity_eq_false hnR]; exact fun hcon => nomatch hcon)]
    · intro hnR
      rw [if_pos (Curve.isInfinity_true_iff.2 hnR)]
      by_cases hQz : C.intMul (modInverse sig.r (C.n : ℤ))
          (C.multiplyTwo sig.s R (-e % (C.n : ℤ)) C.G) = C.zero
      · rw [if_pos (Curve.isInfinity_true_iff.2 hQz), if_pos hQz]
      · rw [if_neg (by rw [Curve.isInfinity_eq_false hQz]; exact fun hcon => nomatch hcon),
          if_neg hQz]

theorem recoverPubKey_spec_witness :
    recoverPubKey toyCurve 4 ⟨3, 1⟩ 9 = .error .inputValidation :=
  (recoverPubKey_spec toyCurve (by decide) 4 ⟨3, 1⟩ 9).1.2 (Or.inl (by decide))

/-- Claim C7 counterexample: on the concrete conforming curve, signature
`(3, 1)` with `e = 4` and the unrelated key `Q = 5`: no recovery id
reproduces `Q`, yet `calcPubKeyRecoveryParam` fails with `InvalidCurvePoint`
(propagated from recovery id 0, whose candidate key is the point at
infinity) instead of the claimed `RecoveryNotFound`. -/
theorem calc_notfound_counterexample :
    (∀ i, i < 4 → ∀ Qp : ZMod 7, recoverPubKey toyCurve 4 ⟨3, 1⟩ i = .ok Qp → Qp ≠ 5) ∧
    calcPubKeyRecoveryParam toyCurve 4 ⟨3, 1⟩ (5 : ZMod 7) = .error .invalidCurvePoint ∧
    calcPubKeyRecoveryParam toyCurve 4 ⟨3, 1⟩ (5 : ZMod 7) ≠ .error .recoveryNotFound :=
  ⟨by decide, by decide, by decide⟩

/-- Claim C7 (amended): `calcPubKeyRecoveryParam` tries recovery ids
`0, 1, 2, 3` in order and returns the first `i` whose recovered point equals
`Q` by coordinate comparison; when all four `recoverPubKey` calls return
points and none equals `Q`, it fails with `RecoveryNotFound`; but when some
`recoverPubKey` call fails before a match is found, that call's error is
propagated instead of `RecoveryNotFound` (see the counterexample). -/
theorem calcPubKeyRecoveryParam_spec {Pt : Type} [DecidableEq Pt] (C : Curve Pt)
    (e : ℤ) (sig : ECSignature) (Q : Pt) :
    (∀ i, calcPubKeyRecoveryParam C e sig Q = .ok i →
      i < 4 ∧ recoverPubKey C e sig i = .ok Q ∧
        ∀ j, j < i → ∃ Qj, recoverPubKey C e sig j = .ok Qj ∧ Qj ≠ Q) ∧
    ((∀ j, j < 4 → ∃ Qj, recoverPubKey C e sig j = .ok Qj ∧ Qj ≠ Q) →
      calcPubKeyRecoveryParam C e sig Q = .error .recoveryNotFound) ∧
    (∀ j err, recoverPubKey C e sig j = .error err → j < 4 →
      (∀ j2, j2 < j → ∃ Qj, recoverPubKey C e sig j2 = .ok Qj ∧ Qj ≠ Q) →
      calcPubKeyRecoveryParam C e sig Q = .error err) := by
  refine ⟨?_, ?_, ?_⟩
  · intro i hi
    obtain ⟨h1, h2, h3, h4⟩ := calcGo_ok hi
    exact ⟨by omega, h3, fun j hj => h4 j (by omega) hj⟩
  · intro hall
    exact calcGo_notfound (fun j h1 h2 => hall j (by omega))
  · intro j err hj hj4 hpre
    exact calcGo_err hj (by omega) (by omega) (fun j2 h1 h2 => hpre j2 h2)

theorem calcPubKeyRecoveryParam_spec_witness :
    calcPubKeyRecoveryParam toyCurve2 0 ⟨1, 1⟩ (3 : ZMod 7) =
      .error .recoveryNotFound :=
  (calcPubKeyRecoveryParam_spec toyCurve2 0 ⟨1, 1⟩ (3 : ZMod 7)).2.1 (by decide)

/-- Claim C8 counterexample: a 1-byte digest together with the nonzero nonce
`1` does not make `deterministicGenerateK` fail with `InputValidation`: the
nonce replacement runs first and substitutes the digest with a 32-byte
SHA-256 output, so the length check passes and a scalar is returned. -/
theorem digest_length_nonce_counterexample :
    ([0] : List ℕ).length ≠ 32 ∧
    (toySha ([0] ++ List.replicate 1 0)).length = 32 ∧
    deterministicGenerateK toyCurve toyHmac toySha [0] 2 (fun _ => true)
      (some 1) 1 = .ok 3 ∧
    deterministicGenerateK toyCurve toyHmac toySha [0] 2 (fun _ => true)
      (some 1) 1 ≠ .error .inputValidation :=
  ⟨by decide, by decide, by decide, by decide⟩

/-- Claim C8 (amended): a supplied digest whose length is not 32 bytes causes
an immediate `InputValidation` failure of `deterministicGenerateK` (and
therefore of `sign`) — aborting before any nonce candidate is produced —
whenever the nonce argument is absent or zero.  (With a nonzero nonce the
digest is first replaced by the 32-byte `SHA256(digest ‖ zeros)`, so the
length check applies to the replacement and passes — see the
counterexample.) -/
theorem digest_length_validation {Pt : Type} [DecidableEq Pt] (C : Curve Pt)
    (hmac : List ℕ → List ℕ → List ℕ) (sha256 : List ℕ → List ℕ)
    (hash : List ℕ) (d : ℤ) (accept : ℤ → Bool) (fuel : ℕ) (nonce : Option ℕ)
    (hnonce : nonce = none ∨ nonce = some 0)
    (hlen : hash.length ≠ 32) :
    deterministicGenerateK C hmac sha256 hash d accept nonce fuel =
      .error .inputValidation ∧
    sign C hmac sha256 hash d nonce fuel = .error .inputValidation := by
  have key : ∀ acc : ℤ → Bool,
      deterministicGenerateK C hmac sha256 hash d acc nonce fuel =
        .error .inputValidation := by
    intro acc
    rcases hnonce with h | h <;> subst h <;> simp only [deterministicGenerateK] <;>
      first
      | rw [if_neg hlen]
      | rw [if_pos trivial, if_neg hlen]
  refine ⟨key accept, ?_⟩
  simp only [sign]
  rw [key _]

theorem digest_length_validation_witness :
    deterministicGenerateK toyCurve toyHmac toySha [0] 2 (fun _ => true) none 1 =
      .error .inputValidation ∧
    sign toyCurve toyHmac toySha [0] 2 none 1 = .error .inputValidation :=
  digest_length_validation toyCurve toyHmac toySha [0] 2 (fun _ => true) 1 none
    (Or.inl rfl) (by decide)

/-- Claim C9: when the nonce argument is supplied and nonzero, the digest
used by the derivation is replaced with `SHA256(digest ‖ zero-bytes(nonce))`
— a zero-filled buffer whose byte length equals the nonce's integer value —
before the RFC 6979 steps run; a nonce of `0` and an omitted nonce leave the
derivation unchanged and agree with each other; and for every fixed argument
tuple repeated calls return the identical result. -/
theorem nonce_perturbation {Pt : Type} (C : Curve Pt)
    (hmac : List ℕ → List ℕ → List ℕ) (sha256 : List ℕ → List ℕ)
    (hash : List ℕ) (d : ℤ) (accept : ℤ → Bool) (fuel : ℕ) (m : ℕ)
    (hm : m ≠ 0) :
    deterministicGenerateK C hmac sha256 hash d accept (some m) fuel =
      deterministicGenerateK C hmac sha256 (sha256 (hash ++ List.replicate m 0))
        d accept none fuel ∧
    deterministicGenerateK C hmac sha256 hash d accept (some 0) fuel =
      deterministicGenerateK C hmac sha256 hash d accept none fuel ∧
    deterministicGenerateK C hmac sha256 hash d accept (some m) fuel =
      deterministicGenerateK C hmac sha256 hash d accept (some m) fuel := by
  refine ⟨?_, rfl, rfl⟩
  simp only [deterministicGenerateK]
  rw [if_neg hm]

theorem nonce_perturbation_witness :
    deterministicGenerateK toyCurve toyHmac toySha [7] 2 (fun _ => true)
      (some 1) 1 =
    deterministicGenerateK toyCurve toyHmac toySha
      (toySha ([7] ++ List.replicate 1 0)) 2 (fun _ => true) none 1 :=
  (nonce_perturbation toyCurve toyHmac toySha [7] 2 (fun _ => true) 1 1
    (by decide)).1

/-- Claim C10: for every nonzero nonce argument, `sign` still computes the
message integer `e = int(h)` from the original digest `h` — the nonce only
perturbs the derivation of `k` inside `deterministicGenerateK` — so the
returned signature verifies against the original digest:
`verify(curve, h, sign(curve, h, d, nonce), d·G) = true`. -/
theorem sign_nonce_roundtrip {Pt : Type} [DecidableEq Pt] {C : Curve Pt}
    (hC : C.Good) (hmac : List ℕ → List ℕ → List ℕ) (sha256 : List ℕ → List ℕ)
    (hash : List ℕ) (d : ℤ) (m : ℕ) (hd0 : 0 < d) (hdn : d < (C.n : ℤ))
    (hm : 0 < m) (fuel : ℕ) (sig : ECSignature)
    (hsig : sign C hmac sha256 hash d (some m) fuel = .ok sig) :
    verify C hash sig (C.intMul d C.G) = true :=
  sign_ok_verify hC hd0 hsig

theorem sign_nonce_roundtrip_witness :
    verify toyCurve (List.replicate 31 0 ++ [4]) ⟨3, 1⟩
      (toyCurve.intMul 2 toyCurve.G) = true :=
  sign_nonce_roundtrip toyCurve_good toyHmac toySha (List.replicate 31 0 ++ [4]) 2 1
    (by decide) (by decide) (by decide) 1 ⟨3, 1⟩ (by decide)

end Claims
